import Mathlib

/-!
Verification of the binary stabilizer-algebra core of the super-cliffords
repository (src/supercliffords/OTOC.py, circuits.py, steps.py).

Binary matrices are embedded shallowly as total functions
`Nat → Nat → Int` together with explicit row and column bounds, so that
the numpy row operations of the source become pointwise function updates
and every definition is executable.  The helper module entropy.py is
referenced by the sources but absent from the source tree; each
definition standing in for it is modelled from the specification and
carries a doc comment beginning with `Modelled from the spec`.
-/

namespace SuperCliffords

/-- OTOC.py, function `g`: per-qubit phase contribution of the rowsum
operation, by cases on the bits (x1, z1).  The four sequential
if-statements of the source are mutually exclusive and exhaustive on bit
inputs; the last one is embedded as the final else branch. -/
def g (x1 z1 x2 z2 : Int) : Int :=
  if x1 = 0 ∧ z1 = 0 then 0
  else if x1 = 0 ∧ z1 = 1 then x2 * (1 - 2 * z2)
  else if x1 = 1 ∧ z1 = 0 then z2 * (2 * x2 - 1)
  else z2 - x2

/-- OTOC.py, function `row_sum`: the accumulator `k` is built by the
loop `for j in range(N): k += g(i[j], i[j+N], h[j], h[j+N])`, then
`f = 2*rh + 2*ri + k`, and the returned sign is 0 iff `f % 4 == 0`.
Rows are total functions; the source indexes `h[j]` and `h[j+N]`.
The unused local `m = np.size(h)` of the source is dropped. -/
def row_sum (h i : Nat → Int) (rh ri : Int) (N : Nat) : Int :=
  let k := (List.range N).foldl
    (fun acc j => acc + g (i j) (i (j + N)) (h j) (h (j + N))) 0
  let f := 2 * rh + 2 * ri + k
  if f % 4 = 0 then 0 else 1

/-- State of the row-echelon reduction of OTOC.py, `REF_binary`:
the mutated matrix `A`, the sign array, and the loop variable
`current_row`. -/
structure RedState where
  A : Nat → Nat → Int
  signs : Nat → Int
  cur : Nat

/-- OTOC.py, `REF_binary` lines 39-48: the inner while loop scanning for
the first row at or below `start` with a nonzero entry in column `j`.
The fuel argument counts the remaining rows, so the recursion is
structural and the function evaluates by kernel reduction. -/
def findPivotAux (A : Nat → Nat → Int) (j : Nat) : Nat → Nat → Nat
  | 0, start => start
  | fuel + 1, start =>
    if A start j = 0 then findPivotAux A j fuel (start + 1) else start

/-- The pivot row for column `j` when the reduction has reached row `c`
of an `m`-row matrix: the scan runs over rows `c, c+1, …, m-1` and
returns `m` when every scanned entry is zero, exactly as the source
while loop leaves `pivot_row == n_rows`. -/
def pivotOf (m : Nat) (A : Nat → Nat → Int) (c j : Nat) : Nat :=
  findPivotAux A j (m - c) c

/-- OTOC.py, `REF_binary` line 51: swap rows `r1` and `r2` of the
matrix. -/
def swapRows (A : Nat → Nat → Int) (r1 r2 : Nat) : Nat → Nat → Int :=
  fun i => if i = r1 then A r2 else if i = r2 then A r1 else A i

/-- OTOC.py, `REF_binary` lines 52-54: swap entries `r1` and `r2` of the
sign array (written in the source with an explicit temporary). -/
def swapSigns (s : Nat → Int) (r1 r2 : Nat) : Nat → Int :=
  fun i => if i = r1 then s r2 else if i = r2 then s r1 else s i

/-- OTOC.py, `REF_binary` lines 61-65, matrix part: every row `i` below
the pivot row `c` with `A[i, j] == 1` is replaced by
`(A[i] + A[c]) % 2`.  The rows are independent (the pivot row itself is
never rewritten), so the sequential numpy updates are a pointwise
update. -/
def elimMatrix (m j c : Nat) (A : Nat → Nat → Int) : Nat → Nat → Int :=
  fun i =>
    if c < i ∧ i < m ∧ A i j = 1
    then (fun col => (A i col + A c col) % 2)
    else A i

/-- OTOC.py, `REF_binary` line 66, sign part: for every eliminated row
the sign is recomputed by `row_sum(A[i], A[pivot_row], …)` where `A[i]`
is the row that has already been replaced by the XOR on line 65. -/
def elimSigns (m N j c : Nat) (A : Nat → Nat → Int) (s : Nat → Int) : Nat → Int :=
  fun i =>
    if c < i ∧ i < m ∧ A i j = 1
    then row_sum (fun col => (A i col + A c col) % 2) (A c) (s i) (s c) N
    else s i

/-- One iteration of the column loop of OTOC.py, `REF_binary`
lines 35-66.  The first guard embeds the `break` on
`current_row >= n_rows` (once it fires every later column is likewise a
no-op, so the break and the guard produce the same final state); the
second guard embeds the `continue` when the pivot scan falls off the end
of the matrix. -/
def processColumn (m N : Nat) (st : RedState) (j : Nat) : RedState :=
  if m ≤ st.cur then st
  else if pivotOf m st.A st.cur j = m then st
  else
    RedState.mk
      (elimMatrix m j st.cur (swapRows st.A st.cur (pivotOf m st.A st.cur j)))
      (elimSigns m N j st.cur (swapRows st.A st.cur (pivotOf m st.A st.cur j))
        (swapSigns st.signs st.cur (pivotOf m st.A st.cur j)))
      (st.cur + 1)

/-- The reduction state after the first `j` columns have been processed,
starting from `current_row = 0`. -/
def reducePrefix (m N : Nat) (A : Nat → Nat → Int) (s : Nat → Int) (j : Nat) : RedState :=
  (List.range j).foldl (processColumn m N) (RedState.mk A s 0)

/-- OTOC.py, `REF_binary`: the full column loop over all `n` columns of
an `m × n` matrix (the source reads `n_rows, n_cols` from `A.shape`;
here they are the explicit bounds `m` and `n`). -/
def reduceState (m n N : Nat) (A : Nat → Nat → Int) (s : Nat → Int) : RedState :=
  reducePrefix m N A s n

/-- OTOC.py, `REF_binary`: the returned pair `(A, signs)`. -/
def REF_binary (m n N : Nat) (A : Nat → Nat → Int) (s : Nat → Int) :
    (Nat → Nat → Int) × (Nat → Int) :=
  ((reduceState m n N A s).A, (reduceState m n N A s).signs)

/-- Modelled from the spec, section 4.3 RankEngine: entropy.py is absent
from the source tree, and `gf2_rank` is specified as GF(2) rank "via the
same elimination shape as 4.2 but without sign tracking".  One column
step of that sign-free elimination; the matrix part is shared with
`processColumn`. -/
def rankStep (m : Nat) (st : (Nat → Nat → Int) × Nat) (j : Nat) :
    (Nat → Nat → Int) × Nat :=
  if m ≤ st.2 then st
  else if pivotOf m st.1 st.2 j = m then st
  else (elimMatrix m j st.2 (swapRows st.1 st.2 (pivotOf m st.1 st.2 j)), st.2 + 1)

/-- The sign-free elimination state after the first `j` columns. -/
def rankPrefix (m : Nat) (A : Nat → Nat → Int) (j : Nat) :
    (Nat → Nat → Int) × Nat :=
  (List.range j).foldl (rankStep m) (A, 0)

/-- Modelled from the spec, section 4.3 RankEngine: the GF(2) rank of an
`m × n` binary matrix is the final `current_row` of the sign-free
forward elimination. -/
def gf2_rank (m n : Nat) (A : Nat → Nat → Int) : Nat :=
  (rankPrefix m A n).2

/-- OTOC.py, function `xs`: the X part of a stabilizer tableau, its
first `N` columns.  The embedding keeps the whole function and records
the `(N, N)` bounds at each use site. -/
def xs (A : Nat → Nat → Int) : Nat → Nat → Int :=
  fun i j => A i j

/-- OTOC.py, function `small_zs`: the submatrix `binMat[N-size2:, N:]`
of the Z part (retained by the OTOC drivers as `REF2` but unused in the
final scalar, as flagged in spec section 9). -/
def small_zs (A : Nat → Nat → Int) (size2 N : Nat) : Nat → Nat → Int :=
  fun i j => A (N - size2 + i) (N + j)

/-- OTOC.py, `OTOC_FS3_Np` lines 202-228 (the identical block also
appears in `OTOC_Rand1` and `OTOC_LocInt`): after `REF_binary`, the
rank of the X part is computed, `size2 = N - rank`, the trailing signs
`signs4 = signs3[rank:]` are scanned by the `Ans` loop, and the sample
contributes 0 when `Ans == 1` and `2 ** (-(rank)/2)` otherwise.  The
division by `rep` performed by the accumulating driver loop is outside
this per-sample value, and the unused `small_zs` intermediate has no
effect on it. -/
noncomputable def otocSample (N : Nat) (bMat : Nat → Nat → Int) (signs : Nat → Int) : ℝ :=
  let st := reduceState N (2 * N) N bMat signs
  let rank := gf2_rank N N (xs st.A)
  let size2 := N - rank
  let signs4 := fun k => st.signs (rank + k)
  let ans := (List.range size2).foldl (fun a k => if signs4 k = 1 then 1 else a) (0 : Int)
  if ans = 1 then 0 else (2 : ℝ) ^ (-(rank : ℝ) / 2)

/-- Modelled from the spec, section 3 CutSpec: entropy.py is absent from
the source tree; `getCutStabilizers` selects the trailing `cut` qubits
columns of an `N × 2N` stabilizer matrix, that is the X columns
`N-cut … N-1` and the Z columns `2N-cut … 2N-1`, giving an `N × 2·cut`
matrix. -/
def getCutStabilizers (N : Nat) (mat : Nat → Nat → Int) (cut : Nat) : Nat → Nat → Int :=
  fun i j =>
    if j < cut then mat i (N - cut + j) else mat i (N + (N - cut) + (j - cut))

/-- circuits.py, `runFS2` lines 87-91: the entropy of a cut is
`gf2_rank(rows(getCutStabilizers(mat, cut))) - cut` (the `rows`
conversion of entropy.py only repackages the matrix for the rank
routine and is absorbed by the matrix embedding). -/
def entropyFS2 (N : Nat) (mat : Nat → Nat → Int) (cut : Nat) : Int :=
  (gf2_rank N (2 * cut) (getCutStabilizers N mat cut) : Int) - cut

/-- Modelled from the spec, section 7 InvalidCut: the entropy
computation fails fast with an explicit error when `cut` lies outside
`[0, N]`, with no silent clamping; the check itself lives in the absent
entropy.py. -/
def entropyChecked (N : Nat) (mat : Nat → Nat → Int) (cut : Int) : Except String Int :=
  if cut < 0 ∨ (N : Int) < cut then Except.error "InvalidCut: cut outside [0, N]"
  else Except.ok (entropyFS2 N mat cut.toNat)

/-- Python runtime errors observable in circuits.py: a NameError names
the unbound identifier. -/
inductive PyErr where
  | nameError : String → PyErr
deriving DecidableEq

/-- circuits.py, `runFS1` inner loop (lines 36-48): each timestep first
evolves the simulator state by `gates.FS1Step` (an external collaborator,
abstracted as the total oracle `step`), and on timesteps with
`i % res == 0` computes the entropy value `SA` (lines 39-43, via the
absent entropy.py, abstracted as the total oracle `sampleSA`) and then
evaluates `j = int(i/l)`; the name `l` is bound nowhere in runFS1 or at
module level, so this raises NameError before `v[j] += SA/M` (whose `M`
is likewise unbound) can run. -/
def fs1Inner {S : Type} (step : Nat → S → S) (sampleSA : S → Int → Int)
    (N res : Nat) (cut : Int) : List Nat → S → Except PyErr S
  | [], s => Except.ok s
  | i :: rest, s =>
    let s1 := step N s
    if i % res = 0 then
      let _SA := sampleSA s1 cut
      Except.error (PyErr.nameError "l")
    else fs1Inner step sampleSA N res cut rest s1

/-- circuits.py, `runFS1` outer repetition loop (line 34): each
repetition starts from a fresh simulator `init` and runs the inner
timestep loop; an uncaught exception from the inner loop aborts the
whole call. -/
def fs1Outer {S : Type} (init : S) (step : Nat → S → S) (sampleSA : S → Int → Int)
    (N T res : Nat) (cut : Int) : List Nat → Except PyErr Unit
  | [] => Except.ok ()
  | _k :: ks =>
    match fs1Inner step sampleSA N res cut (List.range T) init with
    | Except.error e => Except.error e
    | Except.ok _ => fs1Outer init step sampleSA N T res cut ks

/-- circuits.py, `runFS1`: the full driver.  The output arrays `v, w`
are never produced when an iteration raises, so the normal-return value
is abstracted to `Unit`. -/
def runFS1 {S : Type} (init : S) (step : Nat → S → S) (sampleSA : S → Int → Int)
    (N T rep res : Nat) (cut : Int) : Except PyErr Unit :=
  fs1Outer init step sampleSA N T res cut (List.range rep)

/-- steps.py, `Step.__init__`: the accepted trigger strings. -/
inductive When where
  | first | always | even | odd
deriving DecidableEq

/-- steps.py, `Step.validate` lines 42-53: the if/elif chain deciding
whether a step applies at a given `step_count`. -/
def validate (w : When) (step_count : Nat) : Bool :=
  if w = When.always ∧ 0 < step_count then true
  else if w = When.first ∧ step_count = 0 then true
  else if w = When.even ∧ step_count % 2 = 0 ∧ 0 < step_count then true
  else if w = When.odd ∧ step_count % 2 = 1 ∧ 0 < step_count then true
  else false

/-- Binary-valued `m × n` matrix: every in-range entry is a bit. -/
def BinaryM (m n : Nat) (A : Nat → Nat → Int) : Prop :=
  ∀ i, i < m → ∀ j, j < n → A i j = 0 ∨ A i j = 1

instance BinaryM.dec (m n : Nat) (A : Nat → Nat → Int) : Decidable (BinaryM m n A) := by
  unfold BinaryM; infer_instance

/-- Agreement of two function-embedded matrices on all in-range
entries: the numpy arrays of the source carry exactly these entries. -/
def AgreeOn (m n : Nat) (A B : Nat → Nat → Int) : Prop :=
  ∀ i, i < m → ∀ q, q < n → A i q = B i q

/-- Concrete 2 × 2 bit matrix (rows [1,1] and [1,0]) used to evaluate
the elimination step on explicit data. -/
def demoA : Nat → Nat → Int := fun i col =>
  if i = 0 then (if col ≤ 1 then 1 else 0) else (if col = 0 then 1 else 0)

/-- Concrete all-zero sign vector. -/
def demoS : Nat → Int := fun _ => 0

/-- Concrete 1 × 2 bit matrix [1, 0] (the X generator on one qubit). -/
def demoB : Nat → Nat → Int := fun i j => if i = 0 ∧ j = 0 then 1 else 0

/-- Concrete 1 × 2 bit matrix [0, 1] (the Z generator on one qubit). -/
def demoZ : Nat → Nat → Int := fun i j => if i = 0 ∧ j = 1 then 1 else 0

/-- Invariant of the forward elimination after the columns before `j`
have been processed: `c` pivots have been found, with strictly
increasing pivot columns `pcol 0 < pcol 1 < … < pcol (c-1) < j`; each
pivot row carries a 1 at its pivot column with zeros in every lower row;
and every already-processed non-pivot column `q` is zero on all rows at
or below the row count the elimination had reached when it scanned `q`
(expressed through `pcol` by downward closure). -/
structure PivInv (m j : Nat) (A : Nat → Nat → Int) (c : Nat) (pcol : Nat → Nat) : Prop where
  cle : c ≤ m
  mono : ∀ k l, k < l → l < c → pcol k < pcol l
  ubound : ∀ k, k < c → pcol k < j
  pivot_one : ∀ k, k < c → A k (pcol k) = 1
  below_zero : ∀ k, k < c → ∀ i, k < i → i < m → A i (pcol k) = 0
  nonpiv_zero : ∀ q, q < j → (∀ k, k < c → pcol k ≠ q) →
    ∀ i, i < m → (i < c → q < pcol i) → A i q = 0

/-- The number of pivot columns lying strictly below column `j`,
characterized through the strictly increasing `pcol` rather than
computed: `t` of the `c` pivots are below `j` iff the first `t` are and
the rest are not. -/
def PivThresh (c : Nat) (pcol : Nat → Nat) (j t : Nat) : Prop :=
  t ≤ c ∧ (∀ k, k < t → pcol k < j) ∧ (∀ k, t ≤ k → k < c → j ≤ pcol k)

/- ------------------------------------------------------------------ -/
/- Theorems.                                                           -/
/- ------------------------------------------------------------------ -/

theorem findPivotAux_ge (A : Nat → Nat → Int) (j : Nat) :
    ∀ fuel start, start ≤ findPivotAux A j fuel start := by
  intro fuel
  induction fuel with
  | zero => intro start; simp [findPivotAux]
  | succ f ih =>
    intro start
    unfold findPivotAux
    split
    · exact Nat.le_trans (Nat.le_succ start) (ih (start + 1))
    · exact Nat.le_refl start

theorem findPivotAux_le (A : Nat → Nat → Int) (j : Nat) :
    ∀ fuel start, findPivotAux A j fuel start ≤ start + fuel := by
  intro fuel
  induction fuel with
  | zero => intro start; simp [findPivotAux]
  | succ f ih =>
    intro start
    unfold findPivotAux
    split
    · have := ih (start + 1); omega
    · omega

theorem findPivotAux_before (A : Nat → Nat → Int) (j : Nat) :
    ∀ fuel start i, start ≤ i → i < findPivotAux A j fuel start → A i j = 0 := by
  intro fuel
  induction fuel with
  | zero =>
    intro start i hi hlt
    simp [findPivotAux] at hlt
    omega
  | succ f ih =>
    intro start i hi hlt
    unfold findPivotAux at hlt
    by_cases h : A start j = 0
    · rw [if_pos h] at hlt
      by_cases hi0 : i = start
      · subst hi0; exact h
      · exact ih (start + 1) i (by omega) hlt
    · rw [if_neg h] at hlt
      omega

theorem findPivotAux_found (A : Nat → Nat → Int) (j : Nat) :
    ∀ fuel start, findPivotAux A j fuel start < start + fuel →
      A (findPivotAux A j fuel start) j ≠ 0 := by
  intro fuel
  induction fuel with
  | zero => intro start h; simp [findPivotAux] at h
  | succ f ih =>
    intro start hlt
    unfold findPivotAux at hlt ⊢
    by_cases h : A start j = 0
    · rw [if_pos h] at hlt ⊢
      exact ih (start + 1) (by omega)
    · rw [if_neg h] at hlt ⊢
      exact h

theorem findPivotAux_all_zero (A : Nat → Nat → Int) (j : Nat) :
    ∀ fuel start, (∀ i, start ≤ i → i < start + fuel → A i j = 0) →
      findPivotAux A j fuel start = start + fuel := by
  intro fuel
  induction fuel with
  | zero => intro start _; simp [findPivotAux]
  | succ f ih =>
    intro start h
    unfold findPivotAux
    rw [if_pos (h start (Nat.le_refl start) (by omega))]
    rw [ih (start + 1) (fun i h1 h2 => h i (by omega) (by omega))]
    omega

theorem findPivotAux_stop (A : Nat → Nat → Int) (j fuel start : Nat)
    (hf : 0 < fuel) (h : A start j ≠ 0) : findPivotAux A j fuel start = start := by
  cases fuel with
  | zero => omega
  | succ f => unfold findPivotAux; rw [if_neg h]

theorem findPivotAux_congr (A B : Nat → Nat → Int) (j : Nat) :
    ∀ fuel start, (∀ i, start ≤ i → i < start + fuel → A i j = B i j) →
      findPivotAux A j fuel start = findPivotAux B j fuel start := by
  intro fuel
  induction fuel with
  | zero => intro start _; simp [findPivotAux]
  | succ f ih =>
    intro start h
    unfold findPivotAux
    rw [h start (Nat.le_refl start) (by omega)]
    by_cases hB : B start j = 0
    · rw [if_pos hB, if_pos hB]
      exact ih (start + 1) (fun i h1 h2 => h i (by omega) (by omega))
    · rw [if_neg hB, if_neg hB]

theorem swapRows_self (A : Nat → Nat → Int) (r : Nat) : swapRows A r r = A := by
  funext i
  unfold swapRows
  by_cases h : i = r
  · subst h; simp
  · rw [if_neg h, if_neg h]

theorem swapSigns_self (s : Nat → Int) (r : Nat) : swapSigns s r r = s := by
  funext i
  unfold swapSigns
  by_cases h : i = r
  · subst h; simp
  · rw [if_neg h, if_neg h]

theorem swapRows_lt (A : Nat → Nat → Int) (c p : Nat) (hcp : c ≤ p) :
    ∀ i, i < c → swapRows A c p i = A i := by
  intro i hi
  unfold swapRows
  rw [if_neg (by omega), if_neg (by omega)]

theorem swapRows_fst (A : Nat → Nat → Int) (c p : Nat) : swapRows A c p c = A p := by
  unfold swapRows; rw [if_pos rfl]

theorem swapRows_binary (m n : Nat) (A : Nat → Nat → Int) (c p : Nat)
    (hc : c < m) (hp : p < m) (hb : BinaryM m n A) : BinaryM m n (swapRows A c p) := by
  intro i hi q hq
  unfold swapRows
  by_cases h1 : i = c
  · rw [if_pos h1]; exact hb p hp q hq
  · rw [if_neg h1]
    by_cases h2 : i = p
    · rw [if_pos h2]; exact hb c hc q hq
    · rw [if_neg h2]; exact hb i hi q hq

theorem swap_col_zero (A : Nat → Nat → Int) (c p t m q : Nat)
    (h1 : t ≤ c) (h1m : c < m) (h2 : t ≤ p) (h2m : p < m)
    (hz : ∀ i, t ≤ i → i < m → A i q = 0) :
    ∀ i, t ≤ i → i < m → swapRows A c p i q = 0 := by
  intro i hi him
  unfold swapRows
  by_cases e1 : i = c
  · rw [if_pos e1]; exact hz p h2 h2m
  · rw [if_neg e1]
    by_cases e2 : i = p
    · rw [if_pos e2]; exact hz c h1 h1m
    · rw [if_neg e2]; exact hz i hi him

theorem elimMatrix_le (m j c : Nat) (A : Nat → Nat → Int) :
    ∀ i, i ≤ c → elimMatrix m j c A i = A i := by
  intro i hi
  unfold elimMatrix
  rw [if_neg (by omega)]

theorem elimMatrix_binary (m n j c : Nat) (A : Nat → Nat → Int)
    (hb : BinaryM m n A) : BinaryM m n (elimMatrix m j c A) := by
  intro i hi q hq
  unfold elimMatrix
  by_cases hcond : c < i ∧ i < m ∧ A i j = 1
  · rw [if_pos hcond]
    exact Int.emod_two_eq (A i q + A c q)
  · rw [if_neg hcond]; exact hb i hi q hq

theorem elim_col_zero (m j c t q : Nat) (A : Nat → Nat → Int)
    (hc : t ≤ c) (hcm : c < m)
    (hz : ∀ i, t ≤ i → i < m → A i q = 0) :
    ∀ i, t ≤ i → i < m → elimMatrix m j c A i q = 0 := by
  intro i hi him
  unfold elimMatrix
  by_cases hcond : c < i ∧ i < m ∧ A i j = 1
  · rw [if_pos hcond]
    show (A i q + A c q) % 2 = 0
    rw [hz i hi him, hz c hc hcm]
    decide
  · rw [if_neg hcond]; exact hz i hi him

theorem elim_pivot_col (m n j c : Nat) (A : Nat → Nat → Int)
    (hb : BinaryM m n A) (hjn : j < n) (hcj : A c j = 1) :
    ∀ i, c < i → i < m → elimMatrix m j c A i j = 0 := by
  intro i hi him
  unfold elimMatrix
  by_cases hcond : c < i ∧ i < m ∧ A i j = 1
  · rw [if_pos hcond]
    show (A i j + A c j) % 2 = 0
    rw [hcond.2.2, hcj]
    decide
  · rw [if_neg hcond]
    rcases hb i him j hjn with h0 | h1
    · exact h0
    · exact absurd ⟨hi, him, h1⟩ hcond

theorem processColumn_skip (m N : Nat) (st : RedState) (j : Nat) (h : m ≤ st.cur) :
    processColumn m N st j = st := by
  unfold processColumn; rw [if_pos h]

theorem processColumn_nopiv (m N : Nat) (st : RedState) (j : Nat)
    (h1 : ¬ m ≤ st.cur) (h2 : pivotOf m st.A st.cur j = m) :
    processColumn m N st j = st := by
  unfold processColumn; rw [if_neg h1, if_pos h2]

theorem processColumn_piv (m N : Nat) (st : RedState) (j : Nat)
    (h1 : ¬ m ≤ st.cur) (h2 : pivotOf m st.A st.cur j ≠ m) :
    processColumn m N st j = RedState.mk
      (elimMatrix m j st.cur (swapRows st.A st.cur (pivotOf m st.A st.cur j)))
      (elimSigns m N j st.cur (swapRows st.A st.cur (pivotOf m st.A st.cur j))
        (swapSigns st.signs st.cur (pivotOf m st.A st.cur j)))
      (st.cur + 1) := by
  unfold processColumn; rw [if_neg h1, if_neg h2]

theorem reducePrefix_succ (m N : Nat) (A : Nat → Nat → Int) (s : Nat → Int) (j : Nat) :
    reducePrefix m N A s (j + 1) = processColumn m N (reducePrefix m N A s j) j := by
  unfold reducePrefix
  rw [List.range_succ, List.foldl_append]
  rfl

theorem pivot_step_inv (m n j : Nat) (A : Nat → Nat → Int) (c : Nat) (pcol : Nat → Nat)
    (hb : BinaryM m n A) (hinv : PivInv m j A c pcol) (hjn : j < n)
    (hcm : c < m) (p : Nat) (hpdef : pivotOf m A c j = p) (hpm : p < m) :
    BinaryM m n (elimMatrix m j c (swapRows A c p)) ∧
    PivInv m (j + 1) (elimMatrix m j c (swapRows A c p)) (c + 1)
      (fun k => if k = c then j else pcol k) := by
  have hfp : findPivotAux A j (m - c) c = p := hpdef
  have hcp : c ≤ p := by
    rw [← hfp]; exact findPivotAux_ge A j (m - c) c
  have hApj : A p j ≠ 0 := by
    rw [← hfp]
    exact findPivotAux_found A j (m - c) c (by omega)
  have hApj1 : A p j = 1 := (hb p hpm j hjn).resolve_left hApj
  set A1 := swapRows A c p with hA1
  have hA1b : BinaryM m n A1 := swapRows_binary m n A c p hcm hpm hb
  have hA1cj : A1 c j = 1 := by rw [hA1, swapRows_fst]; exact hApj1
  refine ⟨elimMatrix_binary m n j c A1 hA1b, ?_⟩
  constructor
  · omega
  · intro k l hkl hl
    by_cases hlc : l = c
    · subst hlc
      rw [if_neg (by omega), if_pos rfl]
      exact hinv.ubound k (by omega)
    · rw [if_neg (by omega), if_neg hlc]
      exact hinv.mono k l hkl (by omega)
  · intro k hk
    by_cases hkc : k = c
    · rw [if_pos hkc]; omega
    · rw [if_neg hkc]
      have := hinv.ubound k (by omega)
      omega
  · intro k hk
    by_cases hkc : k = c
    · rw [if_pos hkc, hkc, elimMatrix_le m j c A1 c (Nat.le_refl c)]
      exact hA1cj
    · rw [if_neg hkc]
      have hkc' : k < c := by omega
      rw [elimMatrix_le m j c A1 k (by omega), hA1, swapRows_lt A c p hcp k hkc']
      exact hinv.pivot_one k hkc'
  · intro k hk i hki him
    by_cases hkc : k = c
    · rw [if_pos hkc]
      rw [hkc] at hki
      exact elim_pivot_col m n j c A1 hA1b hjn hA1cj i hki him
    · rw [if_neg hkc]
      have hkc' : k < c := by omega
      have hz : ∀ i', k + 1 ≤ i' → i' < m → A i' (pcol k) = 0 :=
        fun i' h1 h2 => hinv.below_zero k hkc' i' (by omega) h2
      have hz1 := swap_col_zero A c p (k + 1) m (pcol k) (by omega) hcm (by omega) hpm hz
      exact elim_col_zero m j c (k + 1) (pcol k) A1 (by omega) hcm hz1 i (by omega) him
  · intro q hq hqns i him hcnd
    have h1 := hqns c (Nat.lt_succ_self c)
    rw [if_pos rfl] at h1
    have hq' : q < j := by omega
    have hqns' : ∀ k, k < c → pcol k ≠ q := by
      intro k hk
      have h2 := hqns k (by omega)
      rw [if_neg (by omega)] at h2
      exact h2
    by_cases hic : i < c
    · rw [elimMatrix_le m j c A1 i (by omega), hA1, swapRows_lt A c p hcp i hic]
      apply hinv.nonpiv_zero q hq' hqns' i him
      intro _
      have h3 := hcnd (by omega)
      rw [if_neg (by omega)] at h3
      exact h3
    · have hz : ∀ i', c ≤ i' → i' < m → A i' q = 0 := by
        intro i' h1' h2'
        exact hinv.nonpiv_zero q hq' hqns' i' h2' (fun hlt => absurd hlt (by omega))
      have hz1 := swap_col_zero A c p c m q (Nat.le_refl c) hcm hcp hpm hz
      exact elim_col_zero m j c c q A1 (Nat.le_refl c) hcm hz1 i (by omega) him

theorem processColumn_inv (m n N j : Nat) (st : RedState) (pcol : Nat → Nat)
    (hb : BinaryM m n st.A) (hinv : PivInv m j st.A st.cur pcol) (hjn : j < n) :
    ∃ pcol', BinaryM m n (processColumn m N st j).A ∧
      PivInv m (j + 1) (processColumn m N st j).A (processColumn m N st j).cur pcol' := by
  by_cases hguard : m ≤ st.cur
  · refine ⟨pcol, ?_, ?_⟩ <;> rw [processColumn_skip m N st j hguard]
    · exact hb
    · refine ⟨hinv.cle, hinv.mono, fun k hk => Nat.lt_succ_of_lt (hinv.ubound k hk),
        hinv.pivot_one, hinv.below_zero, ?_⟩
      intro q hq hqns i him hcnd
      by_cases hq' : q < j
      · exact hinv.nonpiv_zero q hq' hqns i him hcnd
      · have hic : i < st.cur := by omega
        have h1 := hcnd hic
        have h2 := hinv.ubound i hic
        omega
  · by_cases hpm : pivotOf m st.A st.cur j = m
    · refine ⟨pcol, ?_, ?_⟩ <;> rw [processColumn_nopiv m N st j hguard hpm]
      · exact hb
      · refine ⟨hinv.cle, hinv.mono, fun k hk => Nat.lt_succ_of_lt (hinv.ubound k hk),
          hinv.pivot_one, hinv.below_zero, ?_⟩
        intro q hq hqns i him hcnd
        by_cases hq' : q < j
        · exact hinv.nonpiv_zero q hq' hqns i him hcnd
        · have hqj : q = j := by omega
          by_cases hic : i < st.cur
          · have h1 := hcnd hic
            have h2 := hinv.ubound i hic
            omega
          · rw [hqj]
            apply findPivotAux_before st.A j (m - st.cur) st.cur i (by omega)
            have hfp : findPivotAux st.A j (m - st.cur) st.cur = m := hpm
            omega
    · have hcm : st.cur < m := by omega
      have hple : pivotOf m st.A st.cur j ≤ m := by
        have h1 : findPivotAux st.A j (m - st.cur) st.cur ≤ st.cur + (m - st.cur) :=
          findPivotAux_le st.A j (m - st.cur) st.cur
        have h2 : pivotOf m st.A st.cur j = findPivotAux st.A j (m - st.cur) st.cur := rfl
        omega
      have hplt : pivotOf m st.A st.cur j < m := by omega
      have hstep := pivot_step_inv m n j st.A st.cur pcol hb hinv hjn hcm
        (pivotOf m st.A st.cur j) rfl hplt
      refine ⟨fun k => if k = st.cur then j else pcol k, ?_, ?_⟩ <;>
        rw [processColumn_piv m N st j hguard hpm]
      · exact hstep.1
      · exact hstep.2

theorem reducePrefix_inv (m n N : Nat) (A : Nat → Nat → Int) (s : Nat → Int)
    (hb : BinaryM m n A) :
    ∀ j, j ≤ n → ∃ pcol, BinaryM m n (reducePrefix m N A s j).A ∧
      PivInv m j (reducePrefix m N A s j).A (reducePrefix m N A s j).cur pcol := by
  intro j
  induction j with
  | zero =>
    intro _
    refine ⟨fun _ => 0, hb, ?_⟩
    exact ⟨Nat.zero_le m, fun k l _ hl => absurd hl (Nat.not_lt_zero l),
      fun k hk => absurd hk (Nat.not_lt_zero k), fun k hk => absurd hk (Nat.not_lt_zero k),
      fun k hk => absurd hk (Nat.not_lt_zero k), fun q hq => absurd hq (Nat.not_lt_zero q)⟩
  | succ j ih =>
    intro hj
    obtain ⟨pcol, hb', hinv⟩ := ih (by omega)
    rw [reducePrefix_succ]
    exact processColumn_inv m n N j _ pcol hb' hinv (by omega)

theorem rerun_prefix (m n N : Nat) (A : Nat → Nat → Int) (s : Nat → Int)
    (c : Nat) (pcol : Nat → Nat) (hinv : PivInv m n A c pcol) :
    ∀ j, j ≤ n → ∃ t, PivThresh c pcol j t ∧
      reducePrefix m N A s j = RedState.mk A s t := by
  intro j
  induction j with
  | zero =>
    intro _
    exact ⟨0, ⟨Nat.zero_le c, fun k hk => absurd hk (Nat.not_lt_zero k),
      fun k _ _ => Nat.zero_le _⟩, rfl⟩
  | succ j ih =>
    intro hj
    obtain ⟨t, ⟨htc, hlt, hge⟩, hstate⟩ := ih (by omega)
    rw [reducePrefix_succ, hstate]
    by_cases hpiv : ∃ k₀, k₀ < c ∧ pcol k₀ = j
    · obtain ⟨k₀, hk₀c, hk₀j⟩ := hpiv
      have htk : t = k₀ := by
        rcases Nat.lt_trichotomy t k₀ with h | h | h
        · exfalso
          have h1 := hge t (Nat.le_refl t) (by omega)
          have h2 := hinv.mono t k₀ h hk₀c
          omega
        · exact h
        · exfalso
          have h1 := hlt k₀ h
          omega
      have hk₀m : k₀ < m := by have := hinv.cle; omega
      have hA1 : A k₀ j = 1 := by rw [← hk₀j]; exact hinv.pivot_one k₀ hk₀c
      have hpv : pivotOf m A k₀ j = k₀ := by
        apply findPivotAux_stop A j (m - k₀) k₀ (by omega)
        rw [hA1]
        norm_num
      refine ⟨k₀ + 1, ⟨by omega, ?_, ?_⟩, ?_⟩
      · intro k hk
        by_cases hkk : k = k₀
        · rw [hkk, hk₀j]; omega
        · have := hlt k (by omega); omega
      · intro k h1 h2
        have h3 := hinv.mono k₀ k (by omega) h2
        omega
      · rw [htk]
        rw [processColumn_piv m N (RedState.mk A s k₀) j
          (show ¬ m ≤ k₀ by omega) (show pivotOf m A k₀ j ≠ m by rw [hpv]; omega)]
        show RedState.mk
          (elimMatrix m j k₀ (swapRows A k₀ (pivotOf m A k₀ j)))
          (elimSigns m N j k₀ (swapRows A k₀ (pivotOf m A k₀ j))
            (swapSigns s k₀ (pivotOf m A k₀ j)))
          (k₀ + 1) = RedState.mk A s (k₀ + 1)
        rw [hpv, swapRows_self, swapSigns_self]
        have hEM : elimMatrix m j k₀ A = A := by
          funext i
          unfold elimMatrix
          by_cases hcond : k₀ < i ∧ i < m ∧ A i j = 1
          · exfalso
            have hz := hinv.below_zero k₀ hk₀c i hcond.1 hcond.2.1
            rw [hk₀j] at hz
            have := hcond.2.2
            omega
          · rw [if_neg hcond]
        have hES : elimSigns m N j k₀ A s = s := by
          funext i
          unfold elimSigns
          by_cases hcond : k₀ < i ∧ i < m ∧ A i j = 1
          · exfalso
            have hz := hinv.below_zero k₀ hk₀c i hcond.1 hcond.2.1
            rw [hk₀j] at hz
            have := hcond.2.2
            omega
          · rw [if_neg hcond]
        rw [hEM, hES]
    · push_neg at hpiv
      refine ⟨t, ⟨htc, ?_, ?_⟩, ?_⟩
      · intro k hk
        have := hlt k hk
        omega
      · intro k h1 h2
        have h3 := hge k h1 h2
        have h4 := hpiv k h2
        omega
      · by_cases hmt : m ≤ t
        · rw [processColumn_skip m N (RedState.mk A s t) j hmt]
        · have hnop : pivotOf m A t j = m := by
            have hz : ∀ i, t ≤ i → i < t + (m - t) → A i j = 0 := by
              intro i hi1 hi2
              apply hinv.nonpiv_zero j (by omega) hpiv i (by omega)
              intro hic
              have h5 := hge i hi1 hic
              have h6 := hpiv i hic
              omega
            have h7 := findPivotAux_all_zero A j (m - t) t hz
            show findPivotAux A j (m - t) t = m
            omega
          rw [processColumn_nopiv m N (RedState.mk A s t) j hmt hnop]

theorem reduce_fixed_of_inv (m n N : Nat) (A : Nat → Nat → Int) (s : Nat → Int)
    (c : Nat) (pcol : Nat → Nat) (hinv : PivInv m n A c pcol) :
    reduceState m n N A s = RedState.mk A s c := by
  obtain ⟨t, ⟨htc, hlt, hge⟩, hstate⟩ := rerun_prefix m n N A s c pcol hinv n (Nat.le_refl n)
  have htc' : t = c := by
    by_contra hne
    have htlt : t < c := by omega
    have h1 := hge t (Nat.le_refl t) htlt
    have h2 := hinv.ubound t htlt
    omega
  rw [← htc']
  exact hstate

theorem rankStep_skip (m j : Nat) (A : Nat → Nat → Int) (c : Nat) (h : m ≤ c) :
    rankStep m (A, c) j = (A, c) := by
  unfold rankStep
  rw [if_pos (show m ≤ (A, c).2 from h)]

theorem rankStep_nopiv (m j : Nat) (A : Nat → Nat → Int) (c : Nat)
    (h1 : ¬ m ≤ c) (h2 : pivotOf m A c j = m) :
    rankStep m (A, c) j = (A, c) := by
  unfold rankStep
  rw [if_neg (show ¬ m ≤ (A, c).2 from h1),
    if_pos (show pivotOf m (A, c).1 (A, c).2 j = m from h2)]

theorem rankStep_piv (m j : Nat) (A : Nat → Nat → Int) (c : Nat)
    (h1 : ¬ m ≤ c) (h2 : pivotOf m A c j ≠ m) :
    rankStep m (A, c) j = (elimMatrix m j c (swapRows A c (pivotOf m A c j)), c + 1) := by
  unfold rankStep
  rw [if_neg (show ¬ m ≤ (A, c).2 from h1),
    if_neg (show ¬ pivotOf m (A, c).1 (A, c).2 j = m from h2)]

theorem rankStep_eq_processColumn (m N : Nat) (st : RedState) (j : Nat) :
    rankStep m (st.A, st.cur) j = ((processColumn m N st j).A, (processColumn m N st j).cur) := by
  by_cases h1 : m ≤ st.cur
  · rw [processColumn_skip m N st j h1, rankStep_skip m j st.A st.cur h1]
  · by_cases h2 : pivotOf m st.A st.cur j = m
    · rw [processColumn_nopiv m N st j h1 h2, rankStep_nopiv m j st.A st.cur h1 h2]
    · rw [processColumn_piv m N st j h1 h2, rankStep_piv m j st.A st.cur h1 h2]

theorem rankPrefix_eq_reducePrefix (m N : Nat) (A : Nat → Nat → Int) (s : Nat → Int) :
    ∀ j, rankPrefix m A j = ((reducePrefix m N A s j).A, (reducePrefix m N A s j).cur) := by
  intro j
  induction j with
  | zero => rfl
  | succ j ih =>
    have h1 : rankPrefix m A (j + 1) = rankStep m (rankPrefix m A j) j := by
      unfold rankPrefix
      rw [List.range_succ, List.foldl_append]
      rfl
    rw [h1, ih, reducePrefix_succ]
    exact rankStep_eq_processColumn m N (reducePrefix m N A s j) j

theorem foldl_add_int (f : Nat → Int) :
    ∀ (N : Nat) (a : Int),
      (List.range N).foldl (fun acc j => acc + f j) a = a + Finset.sum (Finset.range N) f := by
  intro N
  induction N with
  | zero => intro a; simp
  | succ n ih =>
    intro a
    rw [List.range_succ, List.foldl_append, Finset.sum_range_succ, ih a]
    simp [add_assoc]

/-- C1: the sign-combination rule matches the specification: `g` is the
integer-valued four-case table on (x1, z1), and `row_sum` computes
`k = Σ_{j<N} g(rowI[j], rowI[j+N], rowH[j], rowH[j+N])`,
`f = 2·signH + 2·signI + k`, and returns 0 iff `f mod 4 = 0`, else 1. -/
theorem row_sum_follows_spec (h i : Nat → Int) (rh ri : Int) (N : Nat) :
    (∀ x2 z2 : Int,
      g 0 0 x2 z2 = 0 ∧
      g 0 1 x2 z2 = x2 * (1 - 2 * z2) ∧
      g 1 0 x2 z2 = z2 * (2 * x2 - 1) ∧
      g 1 1 x2 z2 = z2 - x2) ∧
    row_sum h i rh ri N =
      (if (2 * rh + 2 * ri +
            Finset.sum (Finset.range N)
              (fun j => g (i j) (i (j + N)) (h j) (h (j + N)))) % 4 = 0
        then 0 else 1) := by
  constructor
  · intro x2 z2
    refine ⟨?_, ?_, ?_, ?_⟩ <;> norm_num [g]
  · show (if (2 * rh + 2 * ri +
        (List.range N).foldl
          (fun acc j => acc + g (i j) (i (j + N)) (h j) (h (j + N))) 0) % 4 = 0
      then (0 : Int) else 1) = _
    rw [foldl_add_int (fun j => g (i j) (i (j + N)) (h j) (h (j + N))) N 0]
    norm_num

/-- C2: in every elimination step, each row `i` below the pivot with a 1
in the pivot column is replaced by its XOR with the pivot row, and the
sign update calls the rowsum with the already-XORed row — never with the
pre-update row. -/
theorem elimination_sign_uses_updated_row (m N j : Nat) (st : RedState) (p i : Nat)
    (hc : st.cur < m) (hp : pivotOf m st.A st.cur j = p) (hpm : p ≠ m)
    (hi1 : st.cur < i) (hi2 : i < m)
    (hbit : swapRows st.A st.cur p i j = 1) :
    (processColumn m N st j).A i =
      (fun col => (swapRows st.A st.cur p i col + swapRows st.A st.cur p st.cur col) % 2) ∧
    (processColumn m N st j).signs i =
      row_sum (fun col => (swapRows st.A st.cur p i col + swapRows st.A st.cur p st.cur col) % 2)
        (swapRows st.A st.cur p st.cur)
        (swapSigns st.signs st.cur p i) (swapSigns st.signs st.cur p st.cur) N := by
  unfold processColumn
  rw [if_neg (by omega), hp, if_neg hpm]
  constructor
  · show elimMatrix m j st.cur (swapRows st.A st.cur p) i = _
    unfold elimMatrix
    rw [if_pos ⟨hi1, hi2, hbit⟩]
  · show elimSigns m N j st.cur (swapRows st.A st.cur p) (swapSigns st.signs st.cur p) i = _
    unfold elimSigns
    rw [if_pos ⟨hi1, hi2, hbit⟩]

theorem fs1Inner_head_zero {S : Type} (step : Nat → S → S) (sampleSA : S → Int → Int)
    (N res : Nat) (cut : Int) (rest : List Nat) (s : S) :
    fs1Inner step sampleSA N res cut (0 :: rest) s = Except.error (PyErr.nameError "l") := by
  simp [fs1Inner]

/-- C9: for positive N, T, rep, res and any cut, runFS1 hits the unbound
name `l` inside its first entropy computation, at timestep i = 0
(because 0 mod res == 0), so it raises NameError and never returns. -/
theorem runFS1_raises_name_error {S : Type} (init : S) (step : Nat → S → S)
    (sampleSA : S → Int → Int) (N T rep res : Nat) (cut : Int)
    (hN : 1 ≤ N) (hT : 1 ≤ T) (hrep : 1 ≤ rep) (hres : 1 ≤ res) :
    runFS1 init step sampleSA N T rep res cut = Except.error (PyErr.nameError "l") := by
  obtain ⟨t, rfl⟩ : ∃ t, T = t + 1 := ⟨T - 1, by omega⟩
  obtain ⟨r, rfl⟩ : ∃ r, rep = r + 1 := ⟨rep - 1, by omega⟩
  simp only [runFS1, List.range_succ_eq_map, fs1Outer, fs1Inner_head_zero]

/-- C10: at step index 0 only the `first` trigger validates; `always`,
`even` and `odd` all return False there, `first` validates nowhere else,
and `always` validates exactly the positive step counts. -/
theorem validate_trigger_table :
    (validate When.always 0 = false ∧ validate When.even 0 = false ∧
      validate When.odd 0 = false) ∧
    (∀ w : When, validate w 0 = true ↔ w = When.first) ∧
    (∀ n : Nat, validate When.first n = true ↔ n = 0) ∧
    (∀ n : Nat, validate When.always n = true ↔ 0 < n) := by
  refine ⟨by decide, ?_, ?_, ?_⟩
  · intro w; cases w <;> decide
  · intro n
    cases n with
    | zero => decide
    | succ n => simp [validate]
  · intro n
    cases n with
    | zero => decide
    | succ n => simp [validate]

/-- C4: reduction is idempotent: for every N × 2N binary matrix and
length-N sign vector, running `REF_binary` on the output of `REF_binary`
changes neither the matrix nor the sign vector — the reduced state is a
fixed point of the reduction. -/
theorem REF_binary_idempotent (N : Nat) (A : Nat → Nat → Int) (s : Nat → Int)
    (hb : BinaryM N (2 * N) A) :
    REF_binary N (2 * N) N (REF_binary N (2 * N) N A s).1 (REF_binary N (2 * N) N A s).2 =
      REF_binary N (2 * N) N A s := by
  obtain ⟨pcol, hb', hinv⟩ := reducePrefix_inv N (2 * N) N A s hb (2 * N) (Nat.le_refl _)
  have hfix := reduce_fixed_of_inv N (2 * N) N (reducePrefix N N A s (2 * N)).A
    (reducePrefix N N A s (2 * N)).signs (reducePrefix N N A s (2 * N)).cur pcol hinv
  have h1 : (REF_binary N (2 * N) N A s).1 = (reducePrefix N N A s (2 * N)).A := rfl
  have h2 : (REF_binary N (2 * N) N A s).2 = (reducePrefix N N A s (2 * N)).signs := rfl
  rw [h1, h2]
  unfold REF_binary
  rw [hfix]
  rfl

theorem REF_binary_idempotent_witness :
    REF_binary 1 (2 * 1) 1 (REF_binary 1 (2 * 1) 1 demoB demoS).1
        (REF_binary 1 (2 * 1) 1 demoB demoS).2 =
      REF_binary 1 (2 * 1) 1 demoB demoS :=
  REF_binary_idempotent 1 demoB demoS (by decide)

/-- C5: the reduction returns the full reduction result: writing r for
the final current_row value, the reduced matrix is in echelon form with
strictly increasing pivot columns (pivot entry 1, zeros to the left of
and below every pivot, all-zero rows below row r), r equals the count of
pivot columns found with r ≤ N, and the returned pair carries exactly
the reduced matrix together with the sign vector updated in lock-step
with the final row order. -/
theorem reduce_result_echelon (N : Nat) (A : Nat → Nat → Int) (s : Nat → Int)
    (hb : BinaryM N (2 * N) A) :
    ∃ (pcol : Nat → Nat) (r : Nat),
      (reduceState N (2 * N) N A s).cur = r ∧
      r ≤ N ∧
      (∀ k l, k < l → l < r → pcol k < pcol l) ∧
      (∀ k, k < r → pcol k < 2 * N) ∧
      (∀ k, k < r → (reduceState N (2 * N) N A s).A k (pcol k) = 1) ∧
      (∀ k, k < r → ∀ q, q < pcol k → (reduceState N (2 * N) N A s).A k q = 0) ∧
      (∀ k, k < r → ∀ i, k < i → i < N → (reduceState N (2 * N) N A s).A i (pcol k) = 0) ∧
      (∀ i, r ≤ i → i < N → ∀ q, q < 2 * N → (reduceState N (2 * N) N A s).A i q = 0) ∧
      REF_binary N (2 * N) N A s =
        ((reduceState N (2 * N) N A s).A, (reduceState N (2 * N) N A s).signs) := by
  rw [show reduceState N (2 * N) N A s = reducePrefix N N A s (2 * N) from rfl]
  obtain ⟨pcol, hb', hinv⟩ := reducePrefix_inv N (2 * N) N A s hb (2 * N) (Nat.le_refl _)
  refine ⟨pcol, (reducePrefix N N A s (2 * N)).cur, rfl, hinv.cle, hinv.mono, hinv.ubound,
    hinv.pivot_one, ?_, hinv.below_zero, ?_, rfl⟩
  · intro k hk q hq
    by_cases hex : ∃ k', k' < (reducePrefix N N A s (2 * N)).cur ∧ pcol k' = q
    · obtain ⟨k', hk', hq'⟩ := hex
      have hkk : k' < k := by
        rcases Nat.lt_trichotomy k' k with h | h | h
        · exact h
        · exfalso
          rw [h] at hq'
          omega
        · exfalso
          have := hinv.mono k k' h hk'
          omega
      have hz := hinv.below_zero k' hk' k hkk (by have := hinv.cle; omega)
      rw [hq'] at hz
      exact hz
    · push_neg at hex
      refine hinv.nonpiv_zero q ?_ hex k (by have := hinv.cle; omega) (fun _ => hq)
      have := hinv.ubound k hk
      omega
  · intro i hri him q hq
    by_cases hex : ∃ k', k' < (reducePrefix N N A s (2 * N)).cur ∧ pcol k' = q
    · obtain ⟨k', hk', hq'⟩ := hex
      have hz := hinv.below_zero k' hk' i (by omega) him
      rw [hq'] at hz
      exact hz
    · push_neg at hex
      exact hinv.nonpiv_zero q hq hex i him (fun hic => absurd hic (by omega))

theorem reduce_result_echelon_witness :
    ∃ (pcol : Nat → Nat) (r : Nat),
      (reduceState 1 (2 * 1) 1 demoB demoS).cur = r ∧
      r ≤ 1 ∧
      (∀ k l, k < l → l < r → pcol k < pcol l) ∧
      (∀ k, k < r → pcol k < 2 * 1) ∧
      (∀ k, k < r → (reduceState 1 (2 * 1) 1 demoB demoS).A k (pcol k) = 1) ∧
      (∀ k, k < r → ∀ q, q < pcol k → (reduceState 1 (2 * 1) 1 demoB demoS).A k q = 0) ∧
      (∀ k, k < r → ∀ i, k < i → i < 1 → (reduceState 1 (2 * 1) 1 demoB demoS).A i (pcol k) = 0) ∧
      (∀ i, r ≤ i → i < 1 → ∀ q, q < 2 * 1 → (reduceState 1 (2 * 1) 1 demoB demoS).A i q = 0) ∧
      REF_binary 1 (2 * 1) 1 demoB demoS =
        ((reduceState 1 (2 * 1) 1 demoB demoS).A, (reduceState 1 (2 * 1) 1 demoB demoS).signs) :=
  reduce_result_echelon 1 demoB demoS (by decide)

theorem swapRows_congr (m n : Nat) (A B : Nat → Nat → Int) (c p : Nat)
    (hc : c < m) (hp : p < m) (hAB : AgreeOn m n A B) :
    AgreeOn m n (swapRows A c p) (swapRows B c p) := by
  intro i hi q hq
  unfold swapRows
  by_cases h1 : i = c
  · rw [if_pos h1, if_pos h1]
    exact hAB p hp q hq
  · rw [if_neg h1, if_neg h1]
    by_cases h2 : i = p
    · rw [if_pos h2, if_pos h2]
      exact hAB c hc q hq
    · rw [if_neg h2, if_neg h2]
      exact hAB i hi q hq

theorem elimMatrix_congr (m n j c : Nat) (A B : Nat → Nat → Int)
    (hjn : j < n) (hc : c < m) (hAB : AgreeOn m n A B) :
    AgreeOn m n (elimMatrix m j c A) (elimMatrix m j c B) := by
  intro i hi q hq
  have hij : A i j = B i j := hAB i hi j hjn
  unfold elimMatrix
  by_cases hcond : c < i ∧ i < m ∧ A i j = 1
  · have hcondB : c < i ∧ i < m ∧ B i j = 1 :=
      ⟨hcond.1, hcond.2.1, by rw [← hij]; exact hcond.2.2⟩
    rw [if_pos hcond, if_pos hcondB]
    show (A i q + A c q) % 2 = (B i q + B c q) % 2
    rw [hAB i hi q hq, hAB c hc q hq]
  · have hcondB : ¬ (c < i ∧ i < m ∧ B i j = 1) := by
      intro hB
      exact hcond ⟨hB.1, hB.2.1, by rw [hij]; exact hB.2.2⟩
    rw [if_neg hcond, if_neg hcondB]
    exact hAB i hi q hq

theorem rankStep_congr (m n j : Nat) (hjn : j < n) (A B : Nat → Nat → Int)
    (cA cB : Nat) (hcc : cA = cB) (hAB : AgreeOn m n A B) :
    (rankStep m (A, cA) j).2 = (rankStep m (B, cB) j).2 ∧
    AgreeOn m n (rankStep m (A, cA) j).1 (rankStep m (B, cB) j).1 := by
  subst hcc
  by_cases h1 : m ≤ cA
  · rw [rankStep_skip m j A cA h1, rankStep_skip m j B cA h1]
    exact ⟨rfl, hAB⟩
  · have hpEq : pivotOf m A cA j = pivotOf m B cA j := by
      show findPivotAux A j (m - cA) cA = findPivotAux B j (m - cA) cA
      exact findPivotAux_congr A B j (m - cA) cA
        (fun i hi1 hi2 => hAB i (by omega) j hjn)
    by_cases h2 : pivotOf m A cA j = m
    · rw [rankStep_nopiv m j A cA h1 h2,
        rankStep_nopiv m j B cA h1 (by rw [← hpEq]; exact h2)]
      exact ⟨rfl, hAB⟩
    · have h2B : pivotOf m B cA j ≠ m := by rw [← hpEq]; exact h2
      rw [rankStep_piv m j A cA h1 h2, rankStep_piv m j B cA h1 h2B]
      refine ⟨rfl, ?_⟩
      rw [← hpEq]
      have hplt : pivotOf m A cA j < m := by
        have h3 : findPivotAux A j (m - cA) cA ≤ cA + (m - cA) :=
          findPivotAux_le A j (m - cA) cA
        have h4 : pivotOf m A cA j = findPivotAux A j (m - cA) cA := rfl
        omega
      exact elimMatrix_congr m n j cA _ _ hjn (by omega)
        (swapRows_congr m n A B cA (pivotOf m A cA j) (by omega) hplt hAB)

theorem rankPrefix_congr (m n : Nat) (A B : Nat → Nat → Int) (hAB : AgreeOn m n A B) :
    ∀ j, j ≤ n → (rankPrefix m A j).2 = (rankPrefix m B j).2 ∧
      AgreeOn m n (rankPrefix m A j).1 (rankPrefix m B j).1 := by
  intro j
  induction j with
  | zero => intro _; exact ⟨rfl, hAB⟩
  | succ j ih =>
    intro hj
    obtain ⟨hc, hA⟩ := ih (by omega)
    have e1 : rankPrefix m A (j + 1) = rankStep m (rankPrefix m A j) j := by
      unfold rankPrefix
      rw [List.range_succ, List.foldl_append]
      rfl
    have e2 : rankPrefix m B (j + 1) = rankStep m (rankPrefix m B j) j := by
      unfold rankPrefix
      rw [List.range_succ, List.foldl_append]
      rfl
    have h3 := rankStep_congr m n j (by omega) (rankPrefix m A j).1 (rankPrefix m B j).1
      (rankPrefix m A j).2 (rankPrefix m B j).2 hc hA
    rw [e1, e2,
      show rankPrefix m A j = ((rankPrefix m A j).1, (rankPrefix m A j).2) from rfl,
      show rankPrefix m B j = ((rankPrefix m B j).1, (rankPrefix m B j).2) from rfl]
    exact h3

theorem gf2_rank_congr (m n : Nat) (A B : Nat → Nat → Int) (hAB : AgreeOn m n A B) :
    gf2_rank m n A = gf2_rank m n B :=
  (rankPrefix_congr m n A B hAB n (Nat.le_refl n)).1

theorem getCut_full (N : Nat) (mat : Nat → Nat → Int) :
    AgreeOn N (2 * N) (getCutStabilizers N mat N) mat := by
  intro i hi q hq
  unfold getCutStabilizers
  by_cases h : q < N
  · rw [if_pos h]
    congr 1
    omega
  · rw [if_neg h]
    congr 1
    omega

theorem foldl_flag (s4 : Nat → Int) :
    ∀ sz, ((List.range sz).foldl (fun a k => if s4 k = 1 then 1 else a) (0 : Int) = 1 ↔
      ∃ k, k < sz ∧ s4 k = 1) := by
  intro sz
  induction sz with
  | zero => simp
  | succ n ih =>
    rw [List.range_succ, List.foldl_append]
    simp only [List.foldl_cons, List.foldl_nil]
    by_cases h : s4 n = 1
    · rw [if_pos h]
      constructor
      · intro _
        exact ⟨n, Nat.lt_succ_self n, h⟩
      · intro _
        rfl
    · rw [if_neg h, ih]
      constructor
      · rintro ⟨k, hk, hs⟩
        exact ⟨k, by omega, hs⟩
      · rintro ⟨k, hk, hs⟩
        have hkn : k ≠ n := fun he => h (he ▸ hs)
        exact ⟨k, by omega, hs⟩

theorem otocSample_eq_ite (N : Nat) (bMat : Nat → Nat → Int) (signs : Nat → Int) :
    otocSample N bMat signs =
      if ∃ k, k < N - gf2_rank N N (xs (reduceState N (2 * N) N bMat signs).A) ∧
          (reduceState N (2 * N) N bMat signs).signs
            (gf2_rank N N (xs (reduceState N (2 * N) N bMat signs).A) + k) = 1
      then 0
      else (2 : ℝ) ^ (-(gf2_rank N N (xs (reduceState N (2 * N) N bMat signs).A) : ℝ) / 2) := by
  simp only [otocSample]
  exact if_congr (foldl_flag _ _) rfl rfl

/-- C3: for every OTOC sample, after reducing the encoded operator and
computing the X-part rank r with size2 = N - r, the contribution is 0
when any of the bottom size2 sign bits equals 1 and 2^(-r/2) otherwise;
consequently every sample contribution lies in {0} ∪ (0, 1] and is never
negative. -/
theorem otoc_sample_value_and_range (N : Nat) (bMat : Nat → Nat → Int) (signs : Nat → Int) :
    (otocSample N bMat signs =
      if ∃ k, k < N - gf2_rank N N (xs (reduceState N (2 * N) N bMat signs).A) ∧
          (reduceState N (2 * N) N bMat signs).signs
            (gf2_rank N N (xs (reduceState N (2 * N) N bMat signs).A) + k) = 1
      then 0
      else (2 : ℝ) ^ (-(gf2_rank N N (xs (reduceState N (2 * N) N bMat signs).A) : ℝ) / 2)) ∧
    (otocSample N bMat signs = 0 ∨
      (0 < otocSample N bMat signs ∧ otocSample N bMat signs ≤ 1)) := by
  refine ⟨otocSample_eq_ite N bMat signs, ?_⟩
  rw [otocSample_eq_ite N bMat signs]
  by_cases hc : ∃ k, k < N - gf2_rank N N (xs (reduceState N (2 * N) N bMat signs).A) ∧
      (reduceState N (2 * N) N bMat signs).signs
        (gf2_rank N N (xs (reduceState N (2 * N) N bMat signs).A) + k) = 1
  · rw [if_pos hc]
    exact Or.inl rfl
  · rw [if_neg hc]
    refine Or.inr ⟨Real.rpow_pos_of_pos (by norm_num) _, ?_⟩
    apply Real.rpow_le_one_of_one_le_of_nonpos (by norm_num)
    have h0 : (0 : ℝ) ≤ (gf2_rank N N (xs (reduceState N (2 * N) N bMat signs).A) : ℝ) :=
      Nat.cast_nonneg _
    linarith

/-- C7: for any stabilizer matrix, the entropy computation returns 0 at
cut = 0; and at cut = N, for every valid stabilizer state (whose N rows
are linearly independent, so the global GF(2) rank is N) it returns
N minus the global GF(2) rank of the stabilizer matrix. -/
theorem entropy_edge_cuts (N : Nat) (mat : Nat → Nat → Int) :
    entropyFS2 N mat 0 = 0 ∧
    (gf2_rank N (2 * N) mat = N →
      entropyFS2 N mat N = (N : Int) - (gf2_rank N (2 * N) mat : Int)) := by
  constructor
  · rfl
  · intro h
    have hcongr : gf2_rank N (2 * N) (getCutStabilizers N mat N) = gf2_rank N (2 * N) mat :=
      gf2_rank_congr N (2 * N) _ mat (getCut_full N mat)
    unfold entropyFS2
    rw [hcongr, h]

theorem entropy_edge_cuts_witness :
    entropyFS2 1 demoZ 0 = 0 ∧
    entropyFS2 1 demoZ 1 = (1 : Int) - (gf2_rank 1 (2 * 1) demoZ : Int) :=
  ⟨(entropy_edge_cuts 1 demoZ).1, (entropy_edge_cuts 1 demoZ).2 (by decide)⟩

/-- C8: the entropy computation fails fast with an explicit error
whenever cut lies outside [0, N]: it succeeds exactly when
0 ≤ cut ≤ N, in which case it returns the entropy unmodified (no
clamping), and it returns the InvalidCut error on every out-of-range
cut. -/
theorem entropy_invalid_cut_fails_fast (N : Nat) (mat : Nat → Nat → Int) (cut : Int) :
    ((∃ v, entropyChecked N mat cut = Except.ok v) ↔ 0 ≤ cut ∧ cut ≤ (N : Int)) ∧
    (0 ≤ cut → cut ≤ (N : Int) →
      entropyChecked N mat cut = Except.ok (entropyFS2 N mat cut.toNat)) ∧
    ((cut < 0 ∨ (N : Int) < cut) →
      entropyChecked N mat cut = Except.error "InvalidCut: cut outside [0, N]") := by
  unfold entropyChecked
  by_cases h : cut < 0 ∨ (N : Int) < cut
  · rw [if_pos h]
    refine ⟨?_, ?_, fun _ => rfl⟩
    · constructor
      · rintro ⟨v, hv⟩
        exact absurd hv (by simp)
      · intro hcut
        exfalso
        omega
    · intro h1 h2
      exfalso
      omega
  · rw [if_neg h]
    push_neg at h
    refine ⟨?_, fun _ _ => rfl, ?_⟩
    · exact ⟨fun _ => ⟨h.1, h.2⟩, fun _ => ⟨_, rfl⟩⟩
    · intro hcontra
      exfalso
      omega

theorem entropy_invalid_cut_fails_fast_witness :
    entropyChecked 1 demoZ 2 = Except.error "InvalidCut: cut outside [0, N]" ∧
    entropyChecked 1 demoZ 1 = Except.ok (entropyFS2 1 demoZ (1 : Int).toNat) :=
  ⟨(entropy_invalid_cut_fails_fast 1 demoZ 2).2.2 (by norm_num),
   (entropy_invalid_cut_fails_fast 1 demoZ 1).2.1 (by norm_num) (by norm_num)⟩

theorem elimination_sign_uses_updated_row_witness :
    (processColumn 2 1 (RedState.mk demoA demoS 0) 0).A 1 =
      (fun col => (swapRows demoA 0 0 1 col + swapRows demoA 0 0 0 col) % 2) ∧
    (processColumn 2 1 (RedState.mk demoA demoS 0) 0).signs 1 =
      row_sum (fun col => (swapRows demoA 0 0 1 col + swapRows demoA 0 0 0 col) % 2)
        (swapRows demoA 0 0 0)
        (swapSigns demoS 0 0 1) (swapSigns demoS 0 0 0) 1 :=
  elimination_sign_uses_updated_row 2 1 0 (RedState.mk demoA demoS 0) 0 1
    (by decide) (by decide) (by decide) (by decide) (by decide) (by decide)

theorem runFS1_raises_name_error_witness :
    runFS1 () (fun _ _ => ()) (fun _ _ => 0) 1 1 1 1 0 =
      Except.error (PyErr.nameError "l") :=
  runFS1_raises_name_error () (fun _ _ => ()) (fun _ _ => 0) 1 1 1 1 0
    (Nat.le_refl 1) (Nat.le_refl 1) (Nat.le_refl 1) (Nat.le_refl 1)

/-- C6: the sign-free rank computed by gf2_rank (modelled from the spec,
entropy.py being absent) agrees, for every matrix and any sign vector,
with the number of pivots found by the sign-tracking elimination of
`REF_binary` on the same matrix — its final current_row value. -/
theorem gf2_rank_eq_reduction_rank (m n N : Nat) (A : Nat → Nat → Int) (s : Nat → Int) :
    gf2_rank m n A = (reduceState m n N A s).cur := by
  unfold gf2_rank reduceState
  rw [rankPrefix_eq_reducePrefix m N A s n]

end SuperCliffords
